import Mathlib

/-!
Shallow embedding of the task-tree core of the todo app
(src/components/todo-app.tsx, src/components/task-item.tsx).

Modelling conventions:
* JS `Date` objects are modelled by `JSDate`: a valid date carries its
  millisecond instant (an `Int`, as returned by `getTime()`); `invalid`
  models the Invalid Date object produced by parsing a malformed string.
* Date strings in the persisted document are modelled by `DateString`,
  the quotient of strings by what `new Date(s)` observes: `iso ms` stands
  for the ISO-8601 string `toISOString` prints for the instant `ms`
  (that printing is injective and `new Date` parses it back to exactly
  `ms`), and `junk s` stands for any other string, which parses to an
  Invalid Date.
* `localStorage` values, `JSON.parse` / `JSON.stringify` are modelled at
  the level of the document structure; a stored string that is not valid
  JSON is `StoredDoc.malformed` and makes `JSON.parse` throw, which we
  model with `Except.error`.
-/

namespace TodoApp

/-- A JS `Date` object: either a valid instant (ms since epoch) or Invalid Date. -/
inductive JSDate where
  | valid (ms : Int)
  | invalid
deriving DecidableEq

/-- A string occurring in a date position of the persisted document, quotiented
by what `new Date` observes: `iso ms` is the ISO-8601 encoding of the instant
`ms`, `junk s` any string that does not denote a valid instant. -/
inductive DateString where
  | iso (ms : Int)
  | junk (s : String)
deriving DecidableEq

/-- `new Date(s)` on a reminder string: an ISO string parses back to its exact
instant, anything else gives an Invalid Date. -/
def parseDate : DateString → JSDate
  | .iso ms => .valid ms
  | .junk _ => .invalid

/-- JS truthiness of a reminder string (the source guards with
`task.reminder ? ... : undefined`): only the empty string is falsy. -/
def DateString.truthy : DateString → Bool
  | .iso _ => true
  | .junk s => !(s = "")

/-- `d1 < d2` on JS dates (numeric comparison of instants; any comparison
against an Invalid Date is `NaN < x`, hence false). -/
def JSDate.jsLt : JSDate → JSDate → Bool
  | .valid a, .valid b => a < b
  | _, _ => false

/-- `getTime()`: `none` models the `NaN` an Invalid Date yields. -/
def JSDate.getTime : JSDate → Option Int
  | .valid ms => some ms
  | .invalid => none

/-- The `Task` entity (todo-app.tsx lines 12-21). A recursive inductive:
`subtasks` may nest arbitrarily deep in the type, exactly as in the source;
the depth ≤ 2 shape is an invariant, not a typing fact. -/
inductive Task where
  | mk (id : String) (title : String) (completed : Bool) (color : String)
       (tags : List String) (reminder : Option JSDate)
       (subtasks : List Task) (parentId : Option String)

def Task.id : Task → String
  | .mk i _ _ _ _ _ _ _ => i

def Task.title : Task → String
  | .mk _ t _ _ _ _ _ _ => t

def Task.completed : Task → Bool
  | .mk _ _ c _ _ _ _ _ => c

def Task.color : Task → String
  | .mk _ _ _ c _ _ _ _ => c

def Task.tags : Task → List String
  | .mk _ _ _ _ tg _ _ _ => tg

def Task.reminder : Task → Option JSDate
  | .mk _ _ _ _ _ r _ _ => r

def Task.subtasks : Task → List Task
  | .mk _ _ _ _ _ _ s _ => s

def Task.parentId : Task → Option String
  | .mk _ _ _ _ _ _ _ p => p

/-- `\x7b...task, subtasks: l\x7d` : replace the `subtasks` field. -/
def Task.withSubtasks : Task → List Task → Task
  | .mk i t c col tg r _ p, subs => .mk i t c col tg r subs p

/-- A record of the persisted document (the RawDocument entry shape):
`reminder` is a date string (or `null`/omitted, both `none`), `subtasks`
may be missing altogether (`none`). -/
inductive RawTask where
  | mk (id : String) (title : String) (completed : Bool) (color : String)
       (tags : List String) (reminder : Option DateString)
       (subtasks : Option (List RawTask)) (parentId : Option String)

def RawTask.id : RawTask → String
  | .mk i _ _ _ _ _ _ _ => i

def RawTask.reminder : RawTask → Option DateString
  | .mk _ _ _ _ _ r _ _ => r

def RawTask.subtasks : RawTask → Option (List RawTask)
  | .mk _ _ _ _ _ _ s _ => s

/-- `JSON.stringify` on a reminder: a valid Date prints its ISO string; an
Invalid Date's `toJSON` yields `null` and an `undefined` reminder is omitted
(both modelled as `none`, which is also how deserialization treats them). -/
def serializeReminder : Option JSDate → Option DateString
  | some (.valid ms) => some (.iso ms)
  | some .invalid => none
  | none => none

mutual
/-- `JSON.stringify` of one task (todo-app.tsx line 62): every field kept,
dates turned into their ISO strings at every depth. -/
def serializeTask : Task → RawTask
  | .mk i t c col tg r subs p =>
      .mk i t c col tg (serializeReminder r) (some (serializeList subs)) p

def serializeList : List Task → List RawTask
  | [] => []
  | t :: ts => serializeTask t :: serializeList ts
end

def serialize (ts : List Task) : List RawTask := serializeList ts

/-- `task.reminder ? new Date(task.reminder) : undefined` (lines 49 and 53). -/
def reviveReminder : Option DateString → Option JSDate
  | some ds => if ds.truthy then some (parseDate ds) else none
  | none => none

mutual
/-- Levels the load code never converts (below the second level the source
leaves the parsed records in place). On documents satisfying the depth ≤ 2
invariant these lists are empty, so this structural reinterpretation agrees
with the source wherever any theorem below uses it. -/
def rawTaskDeep : RawTask → Task
  | .mk i t c col tg r none p =>
      .mk i t c col tg (reviveReminder r) [] p
  | .mk i t c col tg r (some subs) p =>
      .mk i t c col tg (reviveReminder r) (rawListDeep subs) p

def rawListDeep : List RawTask → List Task
  | [] => []
  | r :: rs => rawTaskDeep r :: rawListDeep rs
end

/-- The inner map of the load effect (todo-app.tsx lines 51-54): spread the
parsed subtask record, converting its reminder string back to a `Date`. -/
def deserializeSubtask : RawTask → Task
  | .mk i t c col tg r subs p =>
      .mk i t c col tg (reviveReminder r) (rawListDeep (subs.getD [])) p

/-- The outer map of the load effect (todo-app.tsx lines 47-55):
convert the reminder, and `task.subtasks?.map(...) || []`. -/
def deserializeTask : RawTask → Task
  | .mk i t c col tg r subs p =>
      .mk i t c col tg (reviveReminder r)
        ((subs.getD []).map deserializeSubtask) p

def deserialize (doc : List RawTask) : List Task := doc.map deserializeTask

/-- The value found under the `"todo-tasks"` key at mount time: absent, a
string that is not valid JSON, or a well-formed document. -/
inductive StoredDoc where
  | absent
  | malformed (s : String)
  | wellFormed (doc : List RawTask)

/-- The load effect (todo-app.tsx lines 42-58). When nothing is stored the
state keeps its initial `[]`; `JSON.parse` on a malformed string throws a
`SyntaxError`, which nothing catches (modelled by `Except.error`); otherwise
the parsed document is revived. -/
def loadTasks : StoredDoc → Except String (List Task)
  | .absent => .ok []
  | .malformed _ => .error "SyntaxError: JSON.parse"
  | .wellFormed doc => .ok (deserialize doc)

/-! ### Mutation operations (todo-app.tsx lines 65-111) -/

/-- The `taskData` argument of `addTask`: `Omit<Task, "id" | "completed" |
"subtasks">` as the dialogs actually fill it (title, tags, reminder, color;
any `parentId` inside the data is overwritten by the second argument). -/
structure TaskData where
  title : String
  color : String
  tags : List String
  reminder : Option JSDate

/-- The new task built at lines 66-72: id is `Date.now().toString()`,
`completed` false, no subtasks, `parentId` as passed. -/
def newTask (now : Int) (data : TaskData) (parentId : Option String) : Task :=
  .mk (toString now) data.title false data.color data.tags data.reminder [] parentId

/-- `addTask` (lines 65-83): with a `parentId`, map over the top level and
append the new task to the subtasks of the task whose id matches; otherwise
append to the top level. -/
def addTask (now : Int) (data : TaskData) (parentId : Option String)
    (prev : List Task) : List Task :=
  match parentId with
  | some pid =>
      prev.map fun t =>
        if t.id = pid then t.withSubtasks (t.subtasks ++ [newTask now data (some pid)])
        else t
  | none => prev ++ [newTask now data none]

/-- The fields an update may carry. `Partial<Task>` restricted to the fields
the application's callers ever pass (task-item.tsx lines 37 and 41, the edit
dialog's submit): title, tags, reminder, color, completed. `none` means the
field is not present in the partial update; for `reminder`, `some none`
models an explicit `reminder: undefined` (clearing the reminder). -/
structure TaskUpdate where
  titleU : Option String
  completedU : Option Bool
  colorU : Option String
  tagsU : Option (List String)
  reminderU : Option (Option JSDate)

/-- `\x7b...task, ...updates\x7d` (line 89): fields present in the update
replace the task's, everything else is untouched. -/
def mergeTask : Task → TaskUpdate → Task
  | .mk i t c col tg r subs p, u =>
      .mk i (u.titleU.getD t) (u.completedU.getD c) (u.colorU.getD col)
        (u.tagsU.getD tg) (u.reminderU.getD r) subs p

mutual
/-- `updateTaskRecursive` (lines 86-96). -/
def updateTaskRecursive (taskId : String) (u : TaskUpdate) : List Task → List Task
  | [] => []
  | t :: ts => updateOneTask taskId u t :: updateTaskRecursive taskId u ts

/-- The body of the map at lines 87-95: on an id match merge the update and
stop (the matched task's subtasks are not visited); otherwise recurse into a
non-empty subtask list. -/
def updateOneTask (taskId : String) (u : TaskUpdate) : Task → Task
  | .mk i t c col tg r subs p =>
      if i = taskId then mergeTask (.mk i t c col tg r subs p) u
      else if subs.length > 0 then .mk i t c col tg r (updateTaskRecursive taskId u subs) p
      else .mk i t c col tg r subs p
end

mutual
/-- `deleteTaskRecursive` (lines 101-109): filter out the matching task (its
whole subtree goes with it) and rewrite the subtask lists of the survivors. -/
def deleteTaskRecursive (taskId : String) : List Task → List Task
  | [] => []
  | t :: ts =>
      if t.id = taskId then deleteTaskRecursive taskId ts
      else deleteOneTask taskId t :: deleteTaskRecursive taskId ts

/-- The in-place rewrite `task.subtasks = deleteTaskRecursive(task.subtasks)`
performed on every kept task with a non-empty subtask list (lines 104-106). -/
def deleteOneTask (taskId : String) : Task → Task
  | .mk i t c col tg r subs p =>
      .mk i t c col tg r
        (if subs.length > 0 then deleteTaskRecursive taskId subs else subs) p
end

/-! ### Tree observations and invariants -/

mutual
/-- Depth-first list of the ids in one task's subtree. -/
def taskIds : Task → List String
  | .mk i _ _ _ _ _ subs _ => i :: tasksIds subs

/-- Depth-first list of every id in the tree (top-level tasks and subtasks at
any depth). -/
def tasksIds : List Task → List String
  | [] => []
  | t :: ts => taskIds t ++ tasksIds ts
end

/-- The spec's uniqueness invariant: all ids in the tree are distinct. -/
def uniqueIds (ts : List Task) : Prop := (tasksIds ts).Nodup

instance (ts : List Task) : Decidable (uniqueIds ts) := by
  unfold uniqueIds; exact List.nodupDecidable _

/-- How many tasks in the tree bear the id `x`. -/
def countId (x : String) (ts : List Task) : Nat := (tasksIds ts).count x

/-- The spec's nesting invariant: no entry of a subtasks sequence has a
non-empty subtasks sequence of its own. -/
def depthLE2 (ts : List Task) : Bool :=
  ts.all fun t => t.subtasks.all fun s => s.subtasks.isEmpty

/-- A reminder field as the data model allows it: absent or a valid instant
(never an Invalid Date). -/
def validReminder : Option JSDate → Bool
  | none => true
  | some (.valid _) => true
  | some .invalid => false

/-- A valid task tree per the spec's data model: depth at most two and every
reminder absent or a valid timestamp. -/
def validTree (ts : List Task) : Bool :=
  ts.all fun t =>
    validReminder t.reminder &&
      t.subtasks.all fun s =>
        validReminder s.reminder && s.subtasks.isEmpty

/-! ### Query/view engine (todo-app.tsx lines 125-180) -/

inductive Status where
  | all | completed | pending | overdue
deriving DecidableEq

inductive SortBy where
  | created | title | reminder
deriving DecidableEq

/-- The view-only filter state (todo-app.tsx lines 23-28). -/
structure FilterState where
  search : String
  tag : String
  status : Status
  sortBy : SortBy

/-- Does the second list start with the first one? -/
def startsList : List Char → List Char → Bool
  | [], _ => true
  | _ :: _, [] => false
  | a :: s, b :: l => a == b && startsList s l

/-- Does the second list contain the first as a contiguous run? -/
def containsSeq : List Char → List Char → Bool
  | n, [] => n.isEmpty
  | n, c :: hay => startsList n (c :: hay) || containsSeq n hay

/-- `hay.toLowerCase().includes(needle.toLowerCase())`: case-insensitive
substring test (JS `includes`; the empty needle is contained in anything;
lower-casing modelled on the ASCII range). -/
def includesCI (hay needle : String) : Bool :=
  containsSeq (needle.toList.map Char.toLower) (hay.toList.map Char.toLower)

/-- `task.reminder && task.reminder < new Date() && !task.completed`
(task-item.tsx line 44 and todo-app.tsx lines 147-149); an absent reminder is
falsy, an Invalid Date compares false against everything. -/
def isOverdue (now : Int) (t : Task) : Bool :=
  match t.reminder with
  | some d => d.jsLt (.valid now) && !t.completed
  | none => false

/-- The filter predicate (todo-app.tsx lines 126-166), evaluated with the
clock reading `now` (the source calls `new Date()` inside the status
criterion). -/
def passesFilter (fs : FilterState) (now : Int) (t : Task) : Bool :=
  if !(fs.search = "") && !(includesCI t.title fs.search)
      && !(t.subtasks.any fun s => includesCI s.title fs.search) then
    false
  else if !(fs.tag = "all") && !(t.tags.contains fs.tag)
      && !(t.subtasks.any fun s => s.tags.contains fs.tag) then
    false
  else
    match fs.status with
    | .all => true
    | .completed => t.completed || t.subtasks.any (·.completed)
    | .pending =>
        !(t.completed || isOverdue now t || t.subtasks.any (isOverdue now))
    | .overdue => isOverdue now t || t.subtasks.any (isOverdue now)

/-- `a.localeCompare(b)`, modelled as code-point lexicographic comparison
(locale-aware collation agrees with this on the plain strings at issue). -/
def localeCompare (a b : String) : Int :=
  if a < b then -1 else if b < a then 1 else 0

/-- NaN-propagating subtraction of two `getTime()` results. -/
def jsSub : Option Int → Option Int → Option Int
  | some a, some b => some (a - b)
  | _, _ => none

/-- Leading-digit accumulation: `Number.parseInt` consumes digits until the
first non-digit. -/
def digitsVal : List Char → Int → Int
  | [], acc => acc
  | c :: cs, acc =>
      if c.isDigit then digitsVal cs (10 * acc + ((c.toNat : Int) - 48)) else acc

/-- `Number.parseInt` in base 10: an optional sign followed by at least one
leading digit; a string with no leading numeric part gives `NaN` (`none`). -/
def parseIntJS (s : String) : Option Int :=
  match s.toList with
  | '-' :: c :: cs =>
      if c.isDigit then some (-(digitsVal cs ((c.toNat : Int) - 48))) else none
  | c :: cs => if c.isDigit then some (digitsVal cs ((c.toNat : Int) - 48)) else none
  | [] => none

/-- The comparator (todo-app.tsx lines 167-179). `none` models a `NaN`
result, which the sort treats as a tie. -/
def taskCmp (sb : SortBy) (a b : Task) : Option Int :=
  match sb with
  | .title => some (localeCompare a.title b.title)
  | .reminder =>
      match a.reminder, b.reminder with
      | none, none => some 0
      | none, some _ => some 1
      | some _, none => some (-1)
      | some da, some db => jsSub da.getTime db.getTime
  | .created => jsSub (parseIntJS a.id) (parseIntJS b.id)

/-- The "not after" relation induced by the comparator: `a` may stay before
`b` iff the comparator does not order `b` strictly first (`NaN` counts as a
tie). -/
def cmpLe (sb : SortBy) (a b : Task) : Prop :=
  match taskCmp sb a b with
  | some v => v ≤ 0
  | none => True

instance (sb : SortBy) : DecidableRel (cmpLe sb) := by
  intro a b
  unfold cmpLe
  exact match taskCmp sb a b with
    | some v => inferInstanceAs (Decidable (v ≤ 0))
    | none => inferInstanceAs (Decidable True)

/-- `Array.prototype.sort` with the comparator: ECMAScript requires a stable
sort that, for a consistent comparator, yields the unique stable sorted
permutation, which is what insertion sort computes. -/
def sortTasks (sb : SortBy) (l : List Task) : List Task :=
  l.insertionSort (cmpLe sb)

/-- `filteredTasks` (todo-app.tsx lines 125-180): filter the top level, then
sort. `now` is the clock the status criterion reads. -/
def filteredTasks (tasks : List Task) (fs : FilterState) (now : Int) : List Task :=
  sortTasks fs.sortBy (tasks.filter (passesFilter fs now))

/-! ### The mutation API as a transition system (for reachable-state claims) -/

inductive Op where
  | add (now : Int) (data : TaskData) (parentId : Option String)
  | update (id : String) (u : TaskUpdate)
  | delete (id : String)

def applyOp (ts : List Task) : Op → List Task
  | .add now d p => addTask now d p ts
  | .update i u => updateTaskRecursive i u ts
  | .delete i => deleteTaskRecursive i ts

/-- The state reached from the empty tree by a sequence of operations. -/
def runOps (ops : List Op) : List Task := ops.foldl applyOp []

/-- No-collision side condition on a run: every `add` is performed at a clock
reading whose string form is not already an id in the current tree. Two adds
within the same millisecond violate this (they produce the same
`Date.now().toString()` id). -/
def opsFresh : List Task → List Op → Prop
  | _, [] => True
  | ts, op :: ops =>
      (match op with
       | .add now _ _ => toString now ∉ tasksIds ts
       | _ => True) ∧ opsFresh (applyOp ts op) ops

/-! ### Basic lemmas about the embedding -/

@[simp] theorem Task.id_mk (i t c col tg r subs p) :
    (Task.mk i t c col tg r subs p).id = i := rfl

@[simp] theorem Task.title_mk (i t c col tg r subs p) :
    (Task.mk i t c col tg r subs p).title = t := rfl

@[simp] theorem Task.completed_mk (i t c col tg r subs p) :
    (Task.mk i t c col tg r subs p).completed = c := rfl

@[simp] theorem Task.tags_mk (i t c col tg r subs p) :
    (Task.mk i t c col tg r subs p).tags = tg := rfl

@[simp] theorem Task.reminder_mk (i t c col tg r subs p) :
    (Task.mk i t c col tg r subs p).reminder = r := rfl

@[simp] theorem Task.subtasks_mk (i t c col tg r subs p) :
    (Task.mk i t c col tg r subs p).subtasks = subs := rfl

@[simp] theorem Task.withSubtasks_mk (i t c col tg r subs p l) :
    (Task.mk i t c col tg r subs p).withSubtasks l = .mk i t c col tg r l p := rfl

theorem Task.withSubtasks_self (t : Task) : t.withSubtasks t.subtasks = t := by
  cases t; rfl

@[simp] theorem tasksIds_nil : tasksIds [] = [] := rfl

@[simp] theorem tasksIds_cons (t : Task) (ts : List Task) :
    tasksIds (t :: ts) = taskIds t ++ tasksIds ts := rfl

@[simp] theorem taskIds_mk (i t c col tg r subs p) :
    taskIds (.mk i t c col tg r subs p) = i :: tasksIds subs := rfl

theorem taskIds_eq (t : Task) : taskIds t = t.id :: tasksIds t.subtasks := by
  cases t; rfl

theorem tasksIds_append (l₁ l₂ : List Task) :
    tasksIds (l₁ ++ l₂) = tasksIds l₁ ++ tasksIds l₂ := by
  induction l₁ with
  | nil => rfl
  | cons t ts ih => simp [ih]

theorem id_mem_tasksIds {t : Task} {ts : List Task} (h : t ∈ ts) :
    t.id ∈ tasksIds ts := by
  induction ts with
  | nil => cases h
  | cons a ts ih =>
    rcases List.mem_cons.mp h with rfl | h
    · simp [taskIds_eq]
    · simp [List.mem_append, ih h]

theorem sub_id_mem_tasksIds {t s : Task} {ts : List Task}
    (ht : t ∈ ts) (hs : s ∈ t.subtasks) : s.id ∈ tasksIds ts := by
  induction ts with
  | nil => cases ht
  | cons a ts ih =>
    rcases List.mem_cons.mp ht with rfl | ht
    · simp [taskIds_eq, id_mem_tasksIds hs]
    · simp [List.mem_append, ih ht]

/-! ### C1: the serialization round trip -/

theorem reviveReminder_serializeReminder {r : Option JSDate}
    (h : validReminder r = true) : reviveReminder (serializeReminder r) = r := by
  match r with
  | none => rfl
  | some (.valid ms) => rfl
  | some .invalid => simp [validReminder] at h

theorem serializeList_eq_map (ts : List Task) :
    serializeList ts = ts.map serializeTask := by
  induction ts with
  | nil => rfl
  | cons t ts ih => simp [serializeList, ih]

theorem deserializeSubtask_serializeTask {s : Task}
    (hr : validReminder s.reminder = true) (hs : s.subtasks = []) :
    deserializeSubtask (serializeTask s) = s := by
  obtain ⟨i, t, c, col, tg, r, subs, p⟩ := s
  simp at hr hs
  subst hs
  simp [serializeTask, deserializeSubtask, serializeList, rawListDeep,
    reviveReminder_serializeReminder hr]

theorem deserialize_serialize_of_valid {ts : List Task}
    (h : validTree ts = true) : deserialize (serialize ts) = ts := by
  induction ts with
  | nil => rfl
  | cons t ts ih =>
    simp only [validTree, List.all_cons, Bool.and_eq_true] at h
    obtain ⟨⟨hr, hsubs⟩, hrest⟩ := h
    have hts := ih (by simpa [validTree] using hrest)
    obtain ⟨i, ti, c, col, tg, r, subs, p⟩ := t
    simp only [serialize, serializeList] at hts ⊢
    simp only [deserialize, List.map_cons] at hts ⊢
    refine List.cons_eq_cons.mpr ⟨?_, hts⟩
    simp only [Task.reminder_mk] at hr
    have hsub : ∀ s ∈ subs, deserializeSubtask (serializeTask s) = s := by
      intro s hmem
      simp only [Task.subtasks_mk, List.all_eq_true] at hsubs
      have h2 := hsubs s hmem
      simp only [Bool.and_eq_true] at h2
      exact deserializeSubtask_serializeTask h2.1 (by simpa using h2.2)
    show deserializeTask (serializeTask (.mk i ti c col tg r subs p))
      = .mk i ti c col tg r subs p
    simp only [serializeTask, deserializeTask, Option.getD_some,
      serializeList_eq_map, List.map_map, reviveReminder_serializeReminder hr]
    refine congrArg (fun l => Task.mk i ti c col tg r l p) ?_
    exact (List.map_congr_left fun s hmem => by simpa using hsub s hmem).trans
      (by simp)

/-- C1. For every valid task tree `t` (depth at most two, reminders absent or
valid instants), deserializing the serialized form yields a tree equal to `t`
field-for-field — ids, titles, completion, colors, tags, reminders (exact
instants, hence at least minute precision), parent ids and the full subtask
nesting — and an absent reminder round-trips to an absent reminder, not to an
invalid-date value. -/
theorem serialize_roundtrip (ts : List Task) (h : validTree ts = true) :
    deserialize (serialize ts) = ts :=
  deserialize_serialize_of_valid h

/-- Witness for C1 on a concrete two-level tree with one timestamped, one
absent reminder. -/
theorem serialize_roundtrip_witness :
    validTree
        [Task.mk "1" "Buy milk" false "bg-card" ["errand"] (some (.valid 1700000000000))
          [Task.mk "2" "2% milk" true "bg-card" [] none [] (some "1")] none] = true ∧
      deserialize
          (serialize
            [Task.mk "1" "Buy milk" false "bg-card" ["errand"] (some (.valid 1700000000000))
              [Task.mk "2" "2% milk" true "bg-card" [] none [] (some "1")] none]) =
        [Task.mk "1" "Buy milk" false "bg-card" ["errand"] (some (.valid 1700000000000))
          [Task.mk "2" "2% milk" true "bg-card" [] none [] (some "1")] none] :=
  ⟨by decide, serialize_roundtrip _ (by decide)⟩

/-! ### C2: updateTask merges the partial update at the matching id -/

theorem mergeTask_id (t : Task) (u : TaskUpdate) : (mergeTask t u).id = t.id := by
  cases t; rfl

theorem mergeTask_subtasks (t : Task) (u : TaskUpdate) :
    (mergeTask t u).subtasks = t.subtasks := by
  cases t; rfl

theorem depthLE2_cons {t : Task} {ts : List Task} :
    depthLE2 (t :: ts) = true ↔
      ((∀ s ∈ t.subtasks, s.subtasks = []) ∧ depthLE2 ts = true) := by
  simp [depthLE2, List.all_eq_true, List.isEmpty_iff]

theorem depth2_sub {ts : List Task} {t s : Task} (hd : depthLE2 ts = true)
    (ht : t ∈ ts) (hs : s ∈ t.subtasks) : s.subtasks = [] := by
  simp only [depthLE2, List.all_eq_true, List.isEmpty_iff] at hd
  exact hd t ht s hs

theorem updateTaskRecursive_flat {subs : List Task}
    (h : ∀ s ∈ subs, s.subtasks = []) (x : String) (u : TaskUpdate) :
    updateTaskRecursive x u subs =
      subs.map fun s => if s.id = x then mergeTask s u else s := by
  induction subs with
  | nil => rfl
  | cons s rest ih =>
    have hs := h s (by simp)
    have hrest := ih fun a ha => h a (List.mem_cons_of_mem _ ha)
    obtain ⟨i, t, c, col, tg, r, sub2, p⟩ := s
    simp only [Task.subtasks_mk] at hs
    subst hs
    by_cases hx : i = x <;>
      simp [updateTaskRecursive, updateOneTask, hx, hrest]

/-- Characterization of `updateTaskRecursive` on trees of depth at most two:
it maps every node in place, merging the update into each node whose id is
`x` (with unique ids: into the unique such node) and leaving every other
node, every unspecified field, and all sibling orders untouched. -/
theorem updateTaskRecursive_eq (x : String) (u : TaskUpdate) {ts : List Task}
    (hd : depthLE2 ts = true) :
    updateTaskRecursive x u ts =
      ts.map fun t =>
        if t.id = x then mergeTask t u
        else t.withSubtasks
          (t.subtasks.map fun s => if s.id = x then mergeTask s u else s) := by
  induction ts with
  | nil => rfl
  | cons t rest ih =>
    obtain ⟨hsub, hrest⟩ := depthLE2_cons.mp hd
    have htail := ih hrest
    obtain ⟨i, ti, c, col, tg, r, subs, p⟩ := t
    simp only [Task.subtasks_mk] at hsub
    show updateOneTask x u (.mk i ti c col tg r subs p)
        :: updateTaskRecursive x u rest = _
    rw [htail]
    refine List.cons_eq_cons.mpr ⟨?_, rfl⟩
    by_cases hx : i = x
    · simp [updateOneTask, hx]
    · rcases subs with _ | ⟨s0, srest⟩
      · simp [updateOneTask, hx]
      · have hf := updateTaskRecursive_flat hsub x u
        simp [updateOneTask, hx, hf]

theorem updateTaskRecursive_noop (x : String) (u : TaskUpdate) {ts : List Task}
    (hd : depthLE2 ts = true) (hx : x ∉ tasksIds ts) :
    updateTaskRecursive x u ts = ts := by
  rw [updateTaskRecursive_eq x u hd]
  have : ∀ t ∈ ts,
      (if t.id = x then mergeTask t u
       else t.withSubtasks
         (t.subtasks.map fun s => if s.id = x then mergeTask s u else s)) = t := by
    intro t ht
    have hid : t.id ≠ x := fun h => hx (by rw [← h]; exact id_mem_tasksIds ht)
    rw [if_neg hid]
    have hsubs : t.subtasks.map
        (fun s => if s.id = x then mergeTask s u else s) = t.subtasks := by
      have : ∀ s ∈ t.subtasks,
          (if s.id = x then mergeTask s u else s) = s := by
        intro s hsmem
        exact if_neg fun h => hx (by rw [← h]; exact sub_id_mem_tasksIds ht hsmem)
      exact (List.map_congr_left this).trans (by simp)
    rw [hsubs, Task.withSubtasks_self]
  exact (List.map_congr_left this).trans (by simp)

/-- C2. On any tree of depth at most two (the shape every reachable tree
has), `updateTask` rewrites the tree in place: each node whose id is `x` —
with unique ids, the unique such node — becomes the merge of itself with the
fields named in the partial update `u` (unspecified fields untouched, see
`mergeTask`), every other node is returned unchanged, and sibling order is
preserved; when no node bears id `x`, the tree is returned unchanged. -/
theorem updateTask_spec (x : String) (u : TaskUpdate) (ts : List Task)
    (hd : depthLE2 ts = true) :
    (updateTaskRecursive x u ts =
        ts.map fun t =>
          if t.id = x then mergeTask t u
          else t.withSubtasks
            (t.subtasks.map fun s => if s.id = x then mergeTask s u else s)) ∧
      (x ∉ tasksIds ts → updateTaskRecursive x u ts = ts) :=
  ⟨updateTaskRecursive_eq x u hd, fun hx => updateTaskRecursive_noop x u hd hx⟩

/-- Witness for C2: completing the nested subtask "2" updates exactly that
node; updating the absent id "7" is a no-op. -/
theorem updateTask_spec_witness :
    (depthLE2
        [Task.mk "1" "a" false "bg-card" [] none
          [Task.mk "2" "b" false "bg-card" [] none [] (some "1")] none] = true) ∧
      (updateTaskRecursive "2" ⟨none, some true, none, none, none⟩
          [Task.mk "1" "a" false "bg-card" [] none
            [Task.mk "2" "b" false "bg-card" [] none [] (some "1")] none] =
        [Task.mk "1" "a" false "bg-card" [] none
          [Task.mk "2" "b" true "bg-card" [] none [] (some "1")] none]) ∧
      (updateTaskRecursive "7" ⟨none, some true, none, none, none⟩
          [Task.mk "1" "a" false "bg-card" [] none
            [Task.mk "2" "b" false "bg-card" [] none [] (some "1")] none] =
        [Task.mk "1" "a" false "bg-card" [] none
          [Task.mk "2" "b" false "bg-card" [] none [] (some "1")] none]) := by
  refine ⟨by decide, ?_, ?_⟩
  · have h := (updateTask_spec "2" ⟨none, some true, none, none, none⟩
      [Task.mk "1" "a" false "bg-card" [] none
        [Task.mk "2" "b" false "bg-card" [] none [] (some "1")] none] (by decide)).1
    rw [h]; rfl
  · exact (updateTask_spec "7" ⟨none, some true, none, none, none⟩
      [Task.mk "1" "a" false "bg-card" [] none
        [Task.mk "2" "b" false "bg-card" [] none [] (some "1")] none] (by decide)).2
      (by decide)

/-! ### C3: deleteTask removes the matching task wherever it occurs -/

theorem mem_tasksIds {a : String} {ts : List Task} :
    a ∈ tasksIds ts ↔ ∃ t ∈ ts, a ∈ taskIds t := by
  induction ts with
  | nil => simp
  | cons t rest ih => simp [List.mem_append, ih]

theorem deleteTaskRecursive_flat {subs : List Task}
    (h : ∀ s ∈ subs, s.subtasks = []) (x : String) :
    deleteTaskRecursive x subs = subs.filter fun s => !(s.id = x) := by
  induction subs with
  | nil => rfl
  | cons s rest ih =>
    have hs := h s (by simp)
    have hrest := ih fun a ha => h a (List.mem_cons_of_mem _ ha)
    obtain ⟨i, t, c, col, tg, r, sub2, p⟩ := s
    simp only [Task.subtasks_mk] at hs
    subst hs
    by_cases hx : i = x <;>
      simp [deleteTaskRecursive, deleteOneTask, hx, hrest, List.filter_cons]

/-- Characterization of `deleteTaskRecursive` on trees of depth at most two:
top-level tasks bearing the id are removed (together with their subtrees) and
every surviving task keeps its position, all its fields, and all its subtasks
except those bearing the id, in order. -/
theorem deleteTaskRecursive_eq (x : String) {ts : List Task}
    (hd : depthLE2 ts = true) :
    deleteTaskRecursive x ts =
      (ts.filter fun t => !(t.id = x)).map fun t =>
        t.withSubtasks (t.subtasks.filter fun s => !(s.id = x)) := by
  induction ts with
  | nil => rfl
  | cons t rest ih =>
    obtain ⟨hsub, hrest⟩ := depthLE2_cons.mp hd
    have htail := ih hrest
    show (if t.id = x then deleteTaskRecursive x rest
        else deleteOneTask x t :: deleteTaskRecursive x rest) = _
    rw [List.filter_cons]
    by_cases hx : t.id = x
    · simp [hx, htail]
    · simp only [hx, decide_False, Bool.not_false, if_neg hx, if_pos rfl,
        List.map_cons, htail]
      refine List.cons_eq_cons.mpr ⟨?_, rfl⟩
      obtain ⟨i, ti, c, col, tg, r, subs, p⟩ := t
      simp only [Task.subtasks_mk] at hsub
      rcases subs with _ | ⟨s0, srest⟩
      · simp [deleteOneTask]
      · have hf := deleteTaskRecursive_flat hsub x
        simp [deleteOneTask, hf]

theorem deleteTaskRecursive_noop (x : String) {ts : List Task}
    (hd : depthLE2 ts = true) (hx : x ∉ tasksIds ts) :
    deleteTaskRecursive x ts = ts := by
  rw [deleteTaskRecursive_eq x hd]
  have hkeep : ts.filter (fun t => !(t.id = x)) = ts := by
    refine List.filter_eq_self.mpr fun t ht => ?_
    simp only [Bool.not_eq_true', decide_eq_false_iff_not]
    exact fun h => hx (by rw [← h]; exact id_mem_tasksIds ht)
  rw [hkeep]
  have : ∀ t ∈ ts,
      t.withSubtasks (t.subtasks.filter fun s => !(s.id = x)) = t := by
    intro t ht
    have hsubs : t.subtasks.filter (fun s => !(s.id = x)) = t.subtasks := by
      refine List.filter_eq_self.mpr fun s hs => ?_
      simp only [Bool.not_eq_true', decide_eq_false_iff_not]
      exact fun h => hx (by rw [← h]; exact sub_id_mem_tasksIds ht hs)
    rw [hsubs, Task.withSubtasks_self]
  exact (List.map_congr_left this).trans (by simp)

theorem not_mem_tasksIds_delete (x : String) {ts : List Task}
    (hd : depthLE2 ts = true) : x ∉ tasksIds (deleteTaskRecursive x ts) := by
  rw [deleteTaskRecursive_eq x hd]
  intro hmem
  obtain ⟨t', ht', hx'⟩ := mem_tasksIds.mp hmem
  obtain ⟨t, htf, rfl⟩ := List.mem_map.mp ht'
  obtain ⟨htmem, htid⟩ := List.mem_filter.mp htf
  simp only [Bool.not_eq_true', decide_eq_false_iff_not] at htid
  rw [taskIds_eq] at hx'
  obtain ⟨i0, ti, c, col, tg, r, subs, p⟩ := t
  simp only [Task.withSubtasks_mk, Task.subtasks_mk, Task.id_mk] at hx' htid ⊢
  rcases List.mem_cons.mp hx' with rfl | hx2
  · exact htid rfl
  · obtain ⟨s', hs', hxs⟩ := mem_tasksIds.mp hx2
    obtain ⟨hsmem, hsid⟩ := List.mem_filter.mp hs'
    simp only [Bool.not_eq_true', decide_eq_false_iff_not] at hsid
    have hse : s'.subtasks = [] :=
      depth2_sub hd htmem (by simpa using hsmem)
    rw [taskIds_eq, hse] at hxs
    simp only [tasksIds_nil] at hxs
    rcases List.mem_singleton.mp hxs with rfl
    exact hsid rfl

/-- C3. On any tree of depth at most two, `deleteTask` removes exactly the
tasks bearing id `x` — from the top level or from any surviving task's
subtask list — keeping every other task, its fields, and all relative orders;
with unique ids and `x` present, the result has exactly one fewer task
bearing id `x`; when `x` is absent, the tree is returned unchanged (a silent
no-op). -/
theorem deleteTask_spec (x : String) (ts : List Task)
    (hd : depthLE2 ts = true) :
    (deleteTaskRecursive x ts =
        (ts.filter fun t => !(t.id = x)).map fun t =>
          t.withSubtasks (t.subtasks.filter fun s => !(s.id = x))) ∧
      (uniqueIds ts → x ∈ tasksIds ts →
        countId x (deleteTaskRecursive x ts) = countId x ts - 1) ∧
      (x ∉ tasksIds ts → deleteTaskRecursive x ts = ts) := by
  refine ⟨deleteTaskRecursive_eq x hd, fun hu hx => ?_,
    fun hx => deleteTaskRecursive_noop x hd hx⟩
  have h0 : countId x (deleteTaskRecursive x ts) = 0 :=
    List.count_eq_zero.mpr (not_mem_tasksIds_delete x hd)
  have h1 : countId x ts = 1 := List.count_eq_one_of_mem hu hx
  rw [h0, h1]

/-- Witness for C3: deleting the nested subtask "2" removes exactly it;
deleting the absent id "7" is a no-op. -/
theorem deleteTask_spec_witness :
    (depthLE2
        [Task.mk "1" "a" false "bg-card" [] none
          [Task.mk "2" "b" false "bg-card" [] none [] (some "1")] none] = true) ∧
      uniqueIds
        [Task.mk "1" "a" false "bg-card" [] none
          [Task.mk "2" "b" false "bg-card" [] none [] (some "1")] none] ∧
      "2" ∈ tasksIds
        [Task.mk "1" "a" false "bg-card" [] none
          [Task.mk "2" "b" false "bg-card" [] none [] (some "1")] none] ∧
      countId "2"
          (deleteTaskRecursive "2"
            [Task.mk "1" "a" false "bg-card" [] none
              [Task.mk "2" "b" false "bg-card" [] none [] (some "1")] none]) =
        countId "2"
            [Task.mk "1" "a" false "bg-card" [] none
              [Task.mk "2" "b" false "bg-card" [] none [] (some "1")] none] - 1 ∧
      deleteTaskRecursive "7"
          [Task.mk "1" "a" false "bg-card" [] none
            [Task.mk "2" "b" false "bg-card" [] none [] (some "1")] none] =
        [Task.mk "1" "a" false "bg-card" [] none
          [Task.mk "2" "b" false "bg-card" [] none [] (some "1")] none] := by
  refine ⟨by decide, by decide, by decide, ?_, ?_⟩
  · exact (deleteTask_spec "2"
      [Task.mk "1" "a" false "bg-card" [] none
        [Task.mk "2" "b" false "bg-card" [] none [] (some "1")] none]
      (by decide)).2.1 (by decide) (by decide)
  · exact (deleteTask_spec "7"
      [Task.mk "1" "a" false "bg-card" [] none
        [Task.mk "2" "b" false "bg-card" [] none [] (some "1")] none]
      (by decide)).2.2 (by decide)

/-! ### C4: addTask appends, preserving prior order -/

theorem addTask_none_eq (now : Int) (d : TaskData) (ts : List Task) :
    addTask now d none ts = ts ++ [newTask now d none] := rfl

theorem addTask_some_found (now : Int) (d : TaskData) {p : String}
    {l₁ l₂ : List Task} {t₀ : Task} (hid : t₀.id = p)
    (h₁ : ∀ t' ∈ l₁, t'.id ≠ p) (h₂ : ∀ t' ∈ l₂, t'.id ≠ p) :
    addTask now d (some p) (l₁ ++ t₀ :: l₂) =
      l₁ ++ t₀.withSubtasks (t₀.subtasks ++ [newTask now d (some p)]) :: l₂ := by
  simp only [addTask, List.map_append, List.map_cons]
  rw [if_pos hid]
  have e₁ : l₁.map (fun t =>
      if t.id = p then t.withSubtasks (t.subtasks ++ [newTask now d (some p)])
      else t) = l₁ :=
    (List.map_congr_left fun t ht => if_neg (h₁ t ht)).trans (by simp)
  have e₂ : l₂.map (fun t =>
      if t.id = p then t.withSubtasks (t.subtasks ++ [newTask now d (some p)])
      else t) = l₂ :=
    (List.map_congr_left fun t ht => if_neg (h₂ t ht)).trans (by simp)
  rw [e₁, e₂]

theorem addTask_some_missing (now : Int) (d : TaskData) {p : String}
    {ts : List Task} (hp : ∀ t' ∈ ts, t'.id ≠ p) :
    addTask now d (some p) ts = ts := by
  simp only [addTask]
  exact (List.map_congr_left fun t ht => if_neg (hp t ht)).trans (by simp)

/-- C4. `addTask` without a parent appends the freshly constructed task
(id `Date.now().toString()`, `completed = false`, empty subtasks, no
`parentId`) to the end of the top level, leaving the existing tasks in order;
with a parent id matching a (unique) top-level task it appends the new task —
carrying that `parentId` — to the end of that task's subtasks, leaving
everything else in order; with a parent id matching no top-level task it
returns the tree unchanged, silently dropping the new task. -/
theorem addTask_spec (now : Int) (d : TaskData) (ts : List Task) :
    (addTask now d none ts =
        ts ++ [Task.mk (toString now) d.title false d.color d.tags d.reminder [] none]) ∧
      (∀ p l₁ t₀ l₂, ts = l₁ ++ t₀ :: l₂ → t₀.id = p →
        (∀ t' ∈ l₁, t'.id ≠ p) → (∀ t' ∈ l₂, t'.id ≠ p) →
        addTask now d (some p) ts =
          l₁ ++ t₀.withSubtasks (t₀.subtasks ++
            [Task.mk (toString now) d.title false d.color d.tags d.reminder [] (some p)])
            :: l₂) ∧
      (∀ p, (∀ t' ∈ ts, t'.id ≠ p) → addTask now d (some p) ts = ts) := by
  refine ⟨addTask_none_eq now d ts, ?_, fun p hp => addTask_some_missing now d hp⟩
  intro p l₁ t₀ l₂ hts hid h₁ h₂
  subst hts
  exact addTask_some_found now d hid h₁ h₂

/-- Witness for C4: appending at the top level, appending under the matching
parent "1", and the silent drop for the unmatched parent "9". -/
theorem addTask_spec_witness :
    (addTask 6 ⟨"b", "bg-card", [], none⟩ none
        [Task.mk "1" "a" false "bg-card" [] none [] none] =
      [Task.mk "1" "a" false "bg-card" [] none [] none,
        Task.mk "6" "b" false "bg-card" [] none [] none]) ∧
      ([Task.mk "1" "a" false "bg-card" [] none [] none] =
          [] ++ Task.mk "1" "a" false "bg-card" [] none [] none :: [] ∧
        (Task.mk "1" "a" false "bg-card" [] none [] none).id = "1" ∧
        addTask 6 ⟨"b", "bg-card", [], none⟩ (some "1")
            [Task.mk "1" "a" false "bg-card" [] none [] none] =
          [Task.mk "1" "a" false "bg-card" [] none
            [Task.mk "6" "b" false "bg-card" [] none [] (some "1")] none]) ∧
      ((∀ t' ∈ [Task.mk "1" "a" false "bg-card" [] none [] none], t'.id ≠ "9") ∧
        addTask 6 ⟨"b", "bg-card", [], none⟩ (some "9")
            [Task.mk "1" "a" false "bg-card" [] none [] none] =
          [Task.mk "1" "a" false "bg-card" [] none [] none]) := by
  refine ⟨?_, ⟨rfl, rfl, ?_⟩, ⟨by decide, ?_⟩⟩
  · have h := (addTask_spec 6 ⟨"b", "bg-card", [], none⟩
      [Task.mk "1" "a" false "bg-card" [] none [] none]).1
    rw [h]; rfl
  · have h := (addTask_spec 6 ⟨"b", "bg-card", [], none⟩
      [Task.mk "1" "a" false "bg-card" [] none [] none]).2.1 "1" []
      (Task.mk "1" "a" false "bg-card" [] none [] none) [] rfl rfl
      (by decide) (by decide)
    rw [h]; rfl
  · exact (addTask_spec 6 ⟨"b", "bg-card", [], none⟩
      [Task.mk "1" "a" false "bg-card" [] none [] none]).2.2 "9" (by decide)

/-! ### C5: invariants of reachable states -/

theorem taskIds_newTask (now : Int) (d : TaskData) (p : Option String) :
    taskIds (newTask now d p) = [toString now] := rfl

theorem taskIds_mergeTask (t : Task) (u : TaskUpdate) :
    taskIds (mergeTask t u) = taskIds t := by
  cases t; rfl

theorem tasksIds_map_pres {f : Task → Task}
    (hf : ∀ t, taskIds (f t) = taskIds t) (ts : List Task) :
    tasksIds (ts.map f) = tasksIds ts := by
  induction ts with
  | nil => rfl
  | cons t rest ih => simp [hf t, ih]

/-- Ids are preserved by an update: the merge never touches `id` or
`subtasks`. -/
theorem tasksIds_update (x : String) (u : TaskUpdate) {ts : List Task}
    (hd : depthLE2 ts = true) :
    tasksIds (updateTaskRecursive x u ts) = tasksIds ts := by
  rw [updateTaskRecursive_eq x u hd]
  refine tasksIds_map_pres (fun t => ?_) ts
  by_cases hx : t.id = x
  · simp [hx, taskIds_mergeTask]
  · rw [if_neg hx]
    obtain ⟨i, ti, c, col, tg, r, subs, p⟩ := t
    simp only [Task.subtasks_mk, Task.withSubtasks_mk, taskIds_mk]
    have hin : tasksIds (subs.map fun s => if s.id = x then mergeTask s u else s)
        = tasksIds subs := by
      refine tasksIds_map_pres (fun s => ?_) subs
      by_cases hsx : s.id = x
      · simp [hsx, taskIds_mergeTask]
      · simp [hsx]
    rw [hin]

theorem depthLE2_spec {ts : List Task} :
    depthLE2 ts = true ↔ ∀ t ∈ ts, ∀ s ∈ t.subtasks, s.subtasks = [] := by
  simp [depthLE2, List.all_eq_true, List.isEmpty_iff]

theorem depthLE2_update (x : String) (u : TaskUpdate) {ts : List Task}
    (hd : depthLE2 ts = true) :
    depthLE2 (updateTaskRecursive x u ts) = true := by
  rw [updateTaskRecursive_eq x u hd]
  rw [depthLE2_spec] at hd ⊢
  intro t' ht' s' hs'
  obtain ⟨t, ht, rfl⟩ := List.mem_map.mp ht'
  by_cases hx : t.id = x
  · rw [if_pos hx, mergeTask_subtasks] at hs'
    exact hd t ht s' hs'
  · rw [if_neg hx] at hs'
    obtain ⟨i, ti, c, col, tg, r, subs, p⟩ := t
    simp only [Task.subtasks_mk, Task.withSubtasks_mk] at hs'
    obtain ⟨s, hs, rfl⟩ := List.mem_map.mp hs'
    by_cases hsx : s.id = x
    · rw [if_pos hsx, mergeTask_subtasks]
      exact hd _ ht s (by simpa using hs)
    · rw [if_neg hsx]
      exact hd _ ht s (by simpa using hs)

theorem tasksIds_filter_sublist (q : Task → Bool) (l : List Task) :
    List.Sublist (tasksIds (l.filter q)) (tasksIds l) := by
  induction l with
  | nil => simp
  | cons s rest ih =>
    rw [List.filter_cons]
    by_cases hq : q s
    · simpa [hq] using List.Sublist.append (List.Sublist.refl (taskIds s)) ih
    · simp only [hq, Bool.false_eq_true, if_neg, if_false, tasksIds_cons]
      exact ih.trans (List.sublist_append_right _ _)

theorem tasksIds_delete_sublist (x : String) {ts : List Task}
    (hd : depthLE2 ts = true) :
    List.Sublist (tasksIds (deleteTaskRecursive x ts)) (tasksIds ts) := by
  rw [deleteTaskRecursive_eq x hd]
  induction ts with
  | nil => simp
  | cons t rest ih =>
    have hrest := ih (depthLE2_cons.mp hd).2
    rw [List.filter_cons]
    by_cases hx : t.id = x
    · simp only [hx, decide_True, Bool.not_true, if_neg, if_false, tasksIds_cons]
      exact hrest.trans (List.sublist_append_right _ _)
    · simp only [hx, decide_False, Bool.not_false, if_pos, if_true,
        List.map_cons, tasksIds_cons]
      refine List.Sublist.append ?_ hrest
      obtain ⟨i, ti, c, col, tg, r, subs, p⟩ := t
      simp only [Task.subtasks_mk, Task.withSubtasks_mk, taskIds_mk]
      exact List.Sublist.cons₂ i (tasksIds_filter_sublist _ subs)

theorem depthLE2_delete (x : String) {ts : List Task}
    (hd : depthLE2 ts = true) :
    depthLE2 (deleteTaskRecursive x ts) = true := by
  rw [deleteTaskRecursive_eq x hd]
  rw [depthLE2_spec] at hd ⊢
  intro t' ht' s' hs'
  obtain ⟨t, ht, rfl⟩ := List.mem_map.mp ht'
  have htmem := (List.mem_filter.mp ht).1
  obtain ⟨i, ti, c, col, tg, r, subs, p⟩ := t
  simp only [Task.subtasks_mk, Task.withSubtasks_mk] at hs'
  exact hd _ htmem s' (by simpa using (List.mem_filter.mp hs').1)

theorem depthLE2_addTask (now : Int) (d : TaskData) (p : Option String)
    {ts : List Task} (hd : depthLE2 ts = true) :
    depthLE2 (addTask now d p ts) = true := by
  rw [depthLE2_spec] at hd ⊢
  cases p with
  | none =>
    intro t ht s hs
    rw [addTask_none_eq] at ht
    rcases List.mem_append.mp ht with ht | ht
    · exact hd t ht s hs
    · rcases List.mem_singleton.mp ht with rfl
      simp [newTask] at hs
  | some pid =>
    intro t' ht' s hs
    simp only [addTask] at ht'
    obtain ⟨t, ht, rfl⟩ := List.mem_map.mp ht'
    by_cases hx : t.id = pid
    · rw [if_pos hx] at hs
      obtain ⟨i, ti, c, col, tg, r, subs, pp⟩ := t
      simp only [Task.subtasks_mk, Task.withSubtasks_mk] at hs
      rcases (by simpa using hs : s ∈ subs ∨ s = newTask now d (some pid)) with
        hmem | rfl
      · exact hd _ ht s hmem
      · simp [newTask]
    · rw [if_neg hx] at hs
      exact hd t ht s hs

/-- Inserting a fresh name just after the subtask block of the matched parent
keeps the id list duplicate-free. -/
theorem nodup_insert_aux {T₁ S T₂ : List String} {i n : String}
    (h : (T₁ ++ (i :: S) ++ T₂).Nodup) (hn : n ∉ T₁ ++ (i :: S) ++ T₂) :
    (T₁ ++ (i :: (S ++ [n])) ++ T₂).Nodup := by
  rw [List.nodup_iff_count_le_one] at h ⊢
  intro a
  have ha := h a
  simp only [List.mem_append, List.mem_cons] at hn
  push_neg at hn
  obtain ⟨⟨hn₁, hni, hnS⟩, hn₂⟩ := hn
  by_cases han : a = n
  · subst han
    have c₁ : T₁.count a = 0 := List.count_eq_zero.mpr hn₁
    have cS : S.count a = 0 := List.count_eq_zero.mpr hnS
    have c₂ : T₂.count a = 0 := List.count_eq_zero.mpr hn₂
    simp [List.count_append, List.count_cons, c₁, cS, c₂, hni]
  · have h1 : (n == a) = false := by
      simp only [beq_eq_false_iff_ne, ne_eq]
      exact fun he => han he.symm
    simp only [List.count_append, List.count_cons, List.count_nil, h1,
      Bool.false_eq_true, if_false, add_zero] at ha ⊢
    omega

theorem uniqueIds_addTask (now : Int) (d : TaskData) (p : Option String)
    {ts : List Task} (hu : uniqueIds ts)
    (hfresh : toString now ∉ tasksIds ts) : uniqueIds (addTask now d p ts) := by
  cases p with
  | none =>
    rw [uniqueIds, addTask_none_eq, tasksIds_append]
    simp only [tasksIds_cons, taskIds_newTask, tasksIds_nil, List.append_nil]
    rw [List.nodup_append]
    exact ⟨hu, List.nodup_singleton _, by simpa using hfresh⟩
  | some pid =>
    by_cases hex : ∃ t ∈ ts, t.id = pid
    · obtain ⟨t₀, ht₀, hid⟩ := hex
      obtain ⟨l₁, l₂, rfl⟩ := List.append_of_mem ht₀
      have hids : tasksIds (l₁ ++ t₀ :: l₂) =
          tasksIds l₁ ++ (t₀.id :: tasksIds t₀.subtasks) ++ tasksIds l₂ := by
        rw [tasksIds_append, tasksIds_cons, taskIds_eq]
        simp [List.append_assoc]
      have hu' := hu
      rw [uniqueIds, hids] at hu'
      have hfresh' : toString now ∉
          tasksIds l₁ ++ (t₀.id :: tasksIds t₀.subtasks) ++ tasksIds l₂ := by
        rw [← hids]; exact hfresh
      have h₁ : ∀ t' ∈ l₁, t'.id ≠ pid := by
        intro t' ht' he
        have hmem₁ : pid ∈ tasksIds l₁ := by
          rw [← he]; exact id_mem_tasksIds ht'
        have hdisj := List.disjoint_of_nodup_append
          (by simpa using hu' : (( tasksIds l₁ ++ (t₀.id :: tasksIds t₀.subtasks)) ++ tasksIds l₂).Nodup)
        have hnodup₁₂ : (tasksIds l₁ ++ (t₀.id :: tasksIds t₀.subtasks)).Nodup :=
          (List.nodup_append.mp (by simpa [List.append_assoc] using hu')).1
        have hd₁ := List.disjoint_of_nodup_append hnodup₁₂
        exact hd₁ hmem₁ (by simp [hid])
      have h₂ : ∀ t' ∈ l₂, t'.id ≠ pid := by
        intro t' ht' he
        have hmem₂ : pid ∈ tasksIds l₂ := by
          rw [← he]; exact id_mem_tasksIds ht'
        have hdisj := List.disjoint_of_nodup_append
          (by simpa [List.append_assoc] using hu' :
            (tasksIds l₁ ++ ((t₀.id :: tasksIds t₀.subtasks) ++ tasksIds l₂)).Nodup)
        have hnodup₂ : ((t₀.id :: tasksIds t₀.subtasks) ++ tasksIds l₂).Nodup :=
          (List.nodup_append.mp (by simpa [List.append_assoc] using hu')).2.1
        have hd₂ := List.disjoint_of_nodup_append hnodup₂
        exact hd₂ (by simp [hid]) hmem₂
      rw [uniqueIds, addTask_some_found now d hid h₁ h₂]
      have hids₂ : tasksIds (l₁ ++
          t₀.withSubtasks (t₀.subtasks ++ [newTask now d (some pid)]) :: l₂) =
          tasksIds l₁ ++ (t₀.id :: (tasksIds t₀.subtasks ++ [toString now]))
            ++ tasksIds l₂ := by
        rw [tasksIds_append, tasksIds_cons]
        obtain ⟨i, ti, c, col, tg, r, subs, pp⟩ := t₀
        simp [tasksIds_append, taskIds_newTask, List.append_assoc]
      rw [hids₂]
      exact nodup_insert_aux hu' hfresh'
    · push_neg at hex
      rw [addTask_some_missing now d hex]
      exact hu

theorem invariant_foldl {ts : List Task} {ops : List Op}
    (h : opsFresh ts ops) (hd : depthLE2 ts = true) (hu : uniqueIds ts) :
    depthLE2 (ops.foldl applyOp ts) = true ∧ uniqueIds (ops.foldl applyOp ts) := by
  induction ops generalizing ts with
  | nil => exact ⟨hd, hu⟩
  | cons op ops ih =>
    obtain ⟨hop, hrest⟩ := h
    rw [List.foldl_cons]
    refine ih hrest ?_ ?_
    · cases op with
      | add now d p => exact depthLE2_addTask now d p hd
      | update i u => exact depthLE2_update i u hd
      | delete i => exact depthLE2_delete i hd
    · cases op with
      | add now d p => exact uniqueIds_addTask now d p hu hop
      | update i u =>
        show uniqueIds (updateTaskRecursive i u ts)
        rw [uniqueIds, tasksIds_update i u hd]
        exact hu
      | delete i =>
        show uniqueIds (deleteTaskRecursive i ts)
        exact (tasksIds_delete_sublist i hd).nodup hu

/-- C5 (amended). Every state reachable from the empty tree by a sequence of
`addTask`/`updateTask`/`deleteTask` operations satisfies the tree invariants
— all ids unique across top-level tasks and subtasks, and no subtask has a
non-empty subtask list — provided no `add` in the sequence collides: each add
happens at a clock reading whose `Date.now().toString()` id is not already in
the tree (two adds within one millisecond violate this and break
uniqueness; see the counterexample). -/
theorem reachable_invariants (ops : List Op) (h : opsFresh [] ops) :
    depthLE2 (runOps ops) = true ∧ uniqueIds (runOps ops) :=
  invariant_foldl h rfl List.Pairwise.nil

/-- Witness for C5: a collision-free two-operation run (an add and a
subtask add) keeps both invariants. -/
theorem reachable_invariants_witness :
    opsFresh [] [.add 5 ⟨"a", "bg-card", [], none⟩ none,
        .add 6 ⟨"b", "bg-card", [], none⟩ (some "5")] ∧
      depthLE2 (runOps [.add 5 ⟨"a", "bg-card", [], none⟩ none,
        .add 6 ⟨"b", "bg-card", [], none⟩ (some "5")]) = true ∧
      uniqueIds (runOps [.add 5 ⟨"a", "bg-card", [], none⟩ none,
        .add 6 ⟨"b", "bg-card", [], none⟩ (some "5")]) := by
  have hf : opsFresh [] [.add 5 ⟨"a", "bg-card", [], none⟩ none,
      .add 6 ⟨"b", "bg-card", [], none⟩ (some "5")] := by
    refine ⟨by simp, ⟨?_, trivial⟩⟩
    show (toString (6 : Int)) ∉ tasksIds (applyOp [] (.add 5 ⟨"a", "bg-card", [], none⟩ none))
    decide
  exact ⟨hf, reachable_invariants _ hf⟩

/-- C5, counterexample to the claim as stated: two adds in the same
millisecond (clock reading 5 twice) produce the duplicate id "5", so the
uniqueness invariant fails in a reachable state. -/
theorem reachable_invariants_counterexample :
    ¬ uniqueIds (runOps [.add 5 ⟨"a", "bg-card", [], none⟩ none,
        .add 5 ⟨"b", "bg-card", [], none⟩ none]) := by
  decide

/-! ### C6: overdue detection and the overdue status filter -/

theorem passesFilter_overdue (now : Int) (sb : SortBy) (t : Task) :
    passesFilter ⟨"", "all", .overdue, sb⟩ now t =
      (isOverdue now t || t.subtasks.any (isOverdue now)) := by
  simp [passesFilter]

/-- C6. A task is overdue at instant `now` iff its reminder is a set (valid)
timestamp earlier than `now` and it is not completed; and under the default
filters with status `overdue`, a top-level task appears in the view iff it is
itself overdue or some direct subtask is — so a non-completed task one hour
past its reminder is included, the same task completed is excluded, and a
task that is not overdue itself but has an overdue subtask is included. -/
theorem overdue_filter_spec (now : Int) (sb : SortBy) (ts : List Task) :
    (∀ t : Task, isOverdue now t = true ↔
      ∃ ms : Int, t.reminder = some (.valid ms) ∧ ms < now ∧
        t.completed = false) ∧
    (∀ t : Task, t ∈ filteredTasks ts ⟨"", "all", .overdue, sb⟩ now ↔
      (t ∈ ts ∧ (isOverdue now t || t.subtasks.any (isOverdue now)) = true)) := by
  constructor
  · intro t
    match hr : t.reminder with
    | none => simp [isOverdue, hr]
    | some .invalid => simp [isOverdue, hr, JSDate.jsLt]
    | some (.valid ms) => simp [isOverdue, hr, JSDate.jsLt]
  · intro t
    rw [filteredTasks, sortTasks, List.mem_insertionSort, List.mem_filter,
      passesFilter_overdue]

/-- Concrete tree for the C6 witness, viewed at instant `1700000000000`:
task "1" has a reminder one hour in the past and is not completed, task "2"
is the same but completed, task "3" has no reminder of its own but an
overdue subtask. -/
def overdueWitnessList : List Task :=
  [Task.mk "1" "a" false "bg-card" [] (some (.valid 1699996400000)) [] none,
   Task.mk "2" "b" true "bg-card" [] (some (.valid 1699996400000)) [] none,
   Task.mk "3" "c" false "bg-card" [] none
     [Task.mk "4" "d" false "bg-card" [] (some (.valid 1699996400000)) []
       (some "3")] none]

/-- Witness for C6: the overdue task is shown, its completed twin is not,
and the task with only an overdue subtask is shown. -/
theorem overdue_filter_spec_witness :
    (Task.mk "1" "a" false "bg-card" [] (some (.valid 1699996400000)) [] none) ∈
        filteredTasks overdueWitnessList ⟨"", "all", .overdue, .created⟩
          1700000000000 ∧
      (Task.mk "2" "b" true "bg-card" [] (some (.valid 1699996400000)) [] none) ∉
        filteredTasks overdueWitnessList ⟨"", "all", .overdue, .created⟩
          1700000000000 ∧
      (Task.mk "3" "c" false "bg-card" [] none
          [Task.mk "4" "d" false "bg-card" [] (some (.valid 1699996400000)) []
            (some "3")] none) ∈
        filteredTasks overdueWitnessList ⟨"", "all", .overdue, .created⟩
          1700000000000 := by
  have h := (overdue_filter_spec 1700000000000 .created overdueWitnessList).2
  refine ⟨(h _).mpr ⟨by simp [overdueWitnessList], by decide⟩, ?_,
    (h _).mpr ⟨by simp [overdueWitnessList], by decide⟩⟩
  intro hmem
  exact absurd ((h _).mp hmem).2 (by decide)

/-! ### C7: behaviour of the load path on corrupt stored state -/

/-- C7. What the load effect actually does: an absent document yields the
empty tree, but a stored string that is not valid JSON makes `JSON.parse`
throw — nothing catches the exception, so the application crashes instead of
recovering with an empty tree — and a well-formed document whose timestamp
string is unparseable is loaded anyway, with an Invalid-Date reminder, rather
than the whole document being treated as absent. -/
theorem load_malformed_behavior :
    loadTasks .absent = .ok [] ∧
      loadTasks (.malformed "corrupt") = .error "SyntaxError: JSON.parse" ∧
      loadTasks (.wellFormed
          [RawTask.mk "9" "t" false "bg-card" []
            (some (.junk "tomorrow")) (some []) none]) =
        .ok [Task.mk "9" "t" false "bg-card" [] (some .invalid) [] none] :=
  ⟨rfl, rfl, rfl⟩

/-! ### C8: sorting by reminder -/

/-- Observation used to reason about the reminder comparator: the key a task
is ordered by — its instant, with reminder-less tasks at `⊤` (after
everything). Only applied to tasks whose reminder is absent or valid. -/
def remKey (t : Task) : WithTop Int :=
  match t.reminder with
  | some (.valid ms) => (ms : WithTop Int)
  | _ => ⊤

def remLe (a b : Task) : Prop := remKey a ≤ remKey b

instance : DecidableRel remLe := fun a b => by unfold remLe; infer_instance

instance : IsTotal Task remLe := ⟨fun a b => le_total (remKey a) (remKey b)⟩

instance : IsTrans Task remLe := ⟨fun _ _ _ => le_trans⟩

/-- On tasks with absent-or-valid reminders, the source comparator's "not
strictly after" relation coincides with ordering by `remKey`. -/
theorem cmpLe_reminder_iff {a b : Task}
    (ha : validReminder a.reminder = true) (hb : validReminder b.reminder = true) :
    cmpLe .reminder a b ↔ remLe a b := by
  unfold cmpLe remLe remKey taskCmp
  match h1 : a.reminder, h2 : b.reminder with
  | none, none => simp [h1, h2]
  | none, some (.valid mb) => simp [h1, h2, JSDate.getTime, jsSub]
  | some (.valid ma), none => simp [h1, h2, JSDate.getTime, jsSub]
  | some (.valid ma), some (.valid mb) =>
      simp [h1, h2, JSDate.getTime, jsSub, sub_nonpos]
  | some .invalid, _ => rw [h1] at ha; simp [validReminder] at ha
  | _, some .invalid => rw [h2] at hb; simp [validReminder] at hb

theorem sortTasks_reminder_eq {l : List Task}
    (hv : ∀ t ∈ l, validReminder t.reminder = true) :
    sortTasks .reminder l = l.insertionSort remLe := by
  have h := List.map_insertionSort (cmpLe .reminder) remLe id l
    (fun a ha b hb => by
      simpa using cmpLe_reminder_iff (hv a ha) (hv b hb))
  simpa [sortTasks] using h

/-- C8. Sorting a list of tasks (with absent-or-valid reminders) by
`reminder` yields a permutation of the list in which every reminder-less task
comes after every timestamped task, timestamped tasks are in ascending
timestamp order, and the sort is stable: tasks that compare equal (both
reminder-less, or carrying equal instants — equal `remKey`) keep their
original relative order. -/
theorem sort_reminder_spec (l : List Task)
    (hv : ∀ t ∈ l, validReminder t.reminder = true) :
    List.Perm (sortTasks .reminder l) l ∧
      (sortTasks .reminder l).Pairwise (fun a b =>
        (a.reminder = none → b.reminder = none) ∧
        (∀ ma mb, a.reminder = some (.valid ma) → b.reminder = some (.valid mb) →
          ma ≤ mb)) ∧
      (∀ a : Task,
        (sortTasks .reminder l).filter (fun x => decide (remKey x = remKey a)) =
          l.filter (fun x => decide (remKey x = remKey a))) := by
  have hperm : List.Perm (sortTasks .reminder l) l :=
    List.perm_insertionSort _ l
  refine ⟨hperm, ?_, ?_⟩
  · rw [sortTasks_reminder_eq hv]
    have hsorted : (l.insertionSort remLe).Pairwise remLe :=
      List.sorted_insertionSort remLe l
    refine hsorted.imp_of_mem ?_
    intro a b hma hmb hle
    have hva := hv a ((List.mem_insertionSort remLe).mp hma)
    have hvb := hv b ((List.mem_insertionSort remLe).mp hmb)
    unfold remLe at hle
    constructor
    · intro hra
      have htop : remKey b = ⊤ :=
        top_le_iff.mp (by simpa [remKey, hra] using hle)
      match hrb : b.reminder with
      | none => rfl
      | some (.valid mb) => simp [remKey, hrb] at htop
      | some .invalid => rw [hrb] at hvb; simp [validReminder] at hvb
    · intro ma mb hra hrb
      simp only [remKey, hra, hrb] at hle
      exact_mod_cast hle
  · intro a
    have hK : ∀ x ∈ l.filter (fun x => decide (remKey x = remKey a)),
        remKey x = remKey a := by
      intro x hx
      simpa using List.of_mem_filter hx
    have hpair : (l.filter (fun x => decide (remKey x = remKey a))).Pairwise
        (cmpLe .reminder) := by
      refine List.pairwise_of_forall_mem_list ?_
      intro x hx y hy
      have hxv := hv x (List.mem_of_mem_filter hx)
      have hyv := hv y (List.mem_of_mem_filter hy)
      exact (cmpLe_reminder_iff hxv hyv).mpr
        (le_of_eq ((hK x hx).trans (hK y hy).symm))
    have hss : List.Sublist (l.filter (fun x => decide (remKey x = remKey a)))
        (sortTasks .reminder l) :=
      List.sublist_insertionSort hpair (List.filter_sublist l)
    have hff : List.Sublist (l.filter (fun x => decide (remKey x = remKey a)))
        ((sortTasks .reminder l).filter (fun x => decide (remKey x = remKey a))) := by
      have h2 := hss.filter (fun x => decide (remKey x = remKey a))
      have h3 : (l.filter (fun x => decide (remKey x = remKey a))).filter
          (fun x => decide (remKey x = remKey a)) =
          l.filter (fun x => decide (remKey x = remKey a)) := by
        apply List.filter_eq_self.mpr
        intro x hx
        exact (List.mem_filter.mp hx).2
      rwa [h3] at h2
    have hlen : ((sortTasks .reminder l).filter
          (fun x => decide (remKey x = remKey a))).length =
        (l.filter (fun x => decide (remKey x = remKey a))).length := by
      rw [← List.countP_eq_length_filter, ← List.countP_eq_length_filter]
      exact hperm.countP_eq _
    exact (hff.eq_of_length hlen.symm).symm

/-- Concrete list for the C8 witness: two reminder-less tasks around two
timestamped ones, out of order. -/
def sortWitnessList : List Task :=
  [Task.mk "1" "a" false "bg-card" [] none [] none,
   Task.mk "2" "b" false "bg-card" [] (some (.valid 50)) [] none,
   Task.mk "3" "c" false "bg-card" [] none [] none,
   Task.mk "4" "d" false "bg-card" [] (some (.valid 10)) [] none]

/-- Witness for C8 on the concrete four-task list, with the stability
equation instantiated at the reminder-less tie class. -/
theorem sort_reminder_spec_witness :
    (∀ t ∈ sortWitnessList, validReminder t.reminder = true) ∧
      List.Perm (sortTasks .reminder sortWitnessList) sortWitnessList ∧
      (sortTasks .reminder sortWitnessList).Pairwise (fun a b =>
        (a.reminder = none → b.reminder = none) ∧
        (∀ ma mb, a.reminder = some (.valid ma) → b.reminder = some (.valid mb) →
          ma ≤ mb)) ∧
      (sortTasks .reminder sortWitnessList).filter
          (fun x => decide (remKey x =
            remKey (Task.mk "1" "a" false "bg-card" [] none [] none))) =
        sortWitnessList.filter
          (fun x => decide (remKey x =
            remKey (Task.mk "1" "a" false "bg-card" [] none [] none))) := by
  have h := sort_reminder_spec sortWitnessList (by decide)
  exact ⟨by decide, h.1, h.2.1, h.2.2 _⟩

/-! ### C9: sorting by creation order -/

/-- C9. When the top-level ids parse as strictly increasing integers along
the list — exactly the shape `addTask` produces when every add happens at a
strictly later millisecond, since ids are the clock readings — sorting by
`created` returns the list unchanged, i.e. in ascending creation (insertion)
order, and the same ordering is obtained after a serialize/deserialize
reload of a valid tree. -/
theorem sort_created_spec (l : List Task)
    (hmono : l.Pairwise (fun a b => ∃ na nb : Int,
      parseIntJS a.id = some na ∧ parseIntJS b.id = some nb ∧ na < nb))
    (hvalid : validTree l = true) :
    sortTasks .created l = l ∧
      sortTasks .created (deserialize (serialize l)) = l := by
  have hsorted : List.Sorted (cmpLe .created) l := by
    refine hmono.imp ?_
    intro a b hab
    obtain ⟨na, nb, ha, hb, hlt⟩ := hab
    unfold cmpLe taskCmp
    simp only [ha, hb, jsSub]
    omega
  have h1 : sortTasks .created l = l := by
    rw [sortTasks]; exact hsorted.insertionSort_eq
  exact ⟨h1, by rw [deserialize_serialize_of_valid hvalid, h1]⟩

/-- Witness for C9: two tasks with ids "10" and "20" in creation order. -/
theorem sort_created_spec_witness :
    ([Task.mk "10" "a" false "bg-card" [] none [] none,
        Task.mk "20" "b" false "bg-card" [] none [] none].Pairwise
      (fun a b => ∃ na nb : Int,
        parseIntJS a.id = some na ∧ parseIntJS b.id = some nb ∧ na < nb)) ∧
      validTree [Task.mk "10" "a" false "bg-card" [] none [] none,
        Task.mk "20" "b" false "bg-card" [] none [] none] = true ∧
      sortTasks .created
          [Task.mk "10" "a" false "bg-card" [] none [] none,
            Task.mk "20" "b" false "bg-card" [] none [] none] =
        [Task.mk "10" "a" false "bg-card" [] none [] none,
          Task.mk "20" "b" false "bg-card" [] none [] none] ∧
      sortTasks .created
          (deserialize (serialize
            [Task.mk "10" "a" false "bg-card" [] none [] none,
              Task.mk "20" "b" false "bg-card" [] none [] none])) =
        [Task.mk "10" "a" false "bg-card" [] none [] none,
          Task.mk "20" "b" false "bg-card" [] none [] none] := by
  have hp : [Task.mk "10" "a" false "bg-card" [] none [] none,
      Task.mk "20" "b" false "bg-card" [] none [] none].Pairwise
      (fun a b => ∃ na nb : Int,
        parseIntJS a.id = some na ∧ parseIntJS b.id = some nb ∧ na < nb) := by
    simp only [List.pairwise_cons, List.mem_singleton, List.not_mem_nil,
      List.Pairwise.nil, forall_eq, and_true]
    constructor
    · exact ⟨10, 20, rfl, rfl, by norm_num⟩
    · intro b hb
      cases hb
  have h := sort_created_spec _ hp (by decide)
  exact ⟨hp, by decide, h.1, h.2⟩

/-! ### C10: the view depends on the clock, not only on tree and filters -/

/-- C10, counterexample to the claim as stated: the status criterion calls
`new Date()` at evaluation time, so two evaluations on the same tree and the
same FilterState (status `overdue`) disagree once the clock passes the
task's reminder: before instant 100 the task is filtered out, after it the
task is shown. -/
theorem view_clock_dependent :
    filteredTasks [Task.mk "1" "a" false "bg-card" [] (some (.valid 100)) [] none]
        ⟨"", "all", .overdue, .created⟩ 50 ≠
      filteredTasks [Task.mk "1" "a" false "bg-card" [] (some (.valid 100)) [] none]
        ⟨"", "all", .overdue, .created⟩ 200 := by
  intro h
  have h1 : filteredTasks
      [Task.mk "1" "a" false "bg-card" [] (some (.valid 100)) [] none]
      ⟨"", "all", .overdue, .created⟩ 50 = [] := rfl
  have h2 : filteredTasks
      [Task.mk "1" "a" false "bg-card" [] (some (.valid 100)) [] none]
      ⟨"", "all", .overdue, .created⟩ 200 =
      [Task.mk "1" "a" false "bg-card" [] (some (.valid 100)) [] none] := rfl
  rw [h1, h2] at h
  exact List.noConfusion h

/-- C10 (amended). The view computation is deterministic in its full inputs
— tree, FilterState, and the clock reading the status criterion makes — and
never mutates the tree (it is a pure filter-then-sort of a fresh list); the
clock only enters through the pending/overdue status criteria, so with
status `all` or `completed` evaluations at any two instants agree, and the
output is a function of tree and FilterState alone. -/
theorem view_clock_independent (ts : List Task) (fs : FilterState)
    (now now' : Int) (h : fs.status = .all ∨ fs.status = .completed) :
    filteredTasks ts fs now = filteredTasks ts fs now' := by
  unfold filteredTasks
  congr 1
  apply List.filter_congr
  intro t ht
  unfold passesFilter
  rcases h with h | h <;> rw [h]

/-- Witness for C10's amended statement with status `all`. -/
theorem view_clock_independent_witness :
    ((⟨"", "all", .all, .created⟩ : FilterState).status = Status.all ∨
        (⟨"", "all", .all, .created⟩ : FilterState).status = Status.completed) ∧
      filteredTasks [Task.mk "1" "a" false "bg-card" [] (some (.valid 100)) [] none]
          ⟨"", "all", .all, .created⟩ 50 =
        filteredTasks [Task.mk "1" "a" false "bg-card" [] (some (.valid 100)) [] none]
          ⟨"", "all", .all, .created⟩ 200 :=
  ⟨Or.inl rfl, view_clock_independent _ _ 50 200 (Or.inl rfl)⟩

end TodoApp
